import Mathlib

/-!
Shallow embedding of the Fluent Forward protocol source
(`src/sources/fluent.rs`) and the reusable TCP source runtime
(`src/sources/util/tcp.rs`) of the repository, together with theorems about
the embedded definitions.

Conventions of the embedding:
* Rust byte buffers (`BytesMut`, `Vec<u8>`, `Bytes`) are `List Nat`, each
  element below 256; `BytesMut::advance(pos)` is `List.drop pos`.
* Rust strings are Lean `String` (or `List Char` where character-level
  reasoning is needed); slicing of the ASCII literals involved coincides
  byte-wise and character-wise.
* Machine integers are `Nat`/`Int` with explicit bounds where overflow or
  range checks matter (`u32` payloads, `i64` range tests, `usize` parsing).
* Fallible Rust code returns `Except`/`Option`.
* Calls into external crates (rmp-serde deserialization, flate2 gzip) are
  modelled as explicit function-valued inputs, so theorems quantify over
  every possible outcome of those collaborators.
-/

namespace FluentVerify

/-! ### Decimal formatting and parsing (Rust `Display`/`FromStr` for unsigned integers) -/

/-- Decimal digit character for digits below ten, as produced by Rust's
integer `Display` implementations. -/
def digitChar (d : Nat) : Char := Char.ofNat (48 + d)

/-- Decimal representation (most significant digit first) of a natural
number, modelling Rust's `Display` for unsigned integers. -/
def natToDec (n : Nat) : List Char :=
  if n < 10 then [digitChar n]
  else natToDec (n / 10) ++ [digitChar (n % 10)]
decreasing_by exact Nat.div_lt_self (by omega) (by omega)

/-- Numeric value of a decimal digit character, `none` on non-digits. -/
def charToDigit (c : Char) : Option Nat :=
  if 48 ≤ c.toNat ∧ c.toNat ≤ 57 then some (c.toNat - 48) else none

/-- Accumulating decimal parser over a character list; fails on the first
non-digit character. -/
def parseDecAux : Nat → List Char → Option Nat
  | acc, [] => some acc
  | acc, c :: rest =>
    match charToDigit c with
    | some d => parseDecAux (acc * 10 + d) rest
    | none => none

/-- Rust's `str::parse` for unsigned integers accepts one optional leading
plus sign. -/
def stripPlus (s : List Char) : List Char :=
  match s with
  | c :: rest => if c = '+' then rest else s
  | [] => s

/-- Model of Rust `str::parse::<usize>` (64-bit target): optional leading
`+`, at least one digit, only digits, and the value must fit in a `usize`. -/
def parseUsize (s : List Char) : Option Nat :=
  let t := stripPlus s
  if t.isEmpty then none
  else
    match parseDecAux 0 t with
    | some n => if n < 2 ^ 64 then some n else none
    | none => none

/-! ### Listen address (`src/sources/util/tcp.rs`): display and `parse_systemd_fd` -/

/-- Errors produced by `parse_systemd_fd` (the `de::Error::custom` cases, by
which branch raised them). -/
inductive SystemdParseError
  | invalidInt
  | zeroIndex
  | notSystemd
deriving DecidableEq

/-- `SocketListenAddr`: a concrete socket address or an inherited
systemd file-descriptor index.  The socket-address payload is abstracted by
its display text, which is all the claims inspect. -/
inductive SocketListenAddr
  | socketAddr (text : List Char)
  | systemdFd (offset : Nat)
deriving DecidableEq

/-- The `Display` implementation for `SocketListenAddr`: a `SystemdFd`
offset prints as `systemd socket #{offset}`. -/
def displaySocketListenAddr : SocketListenAddr → List Char
  | .socketAddr text => text
  | .systemdFd offset => "systemd socket #".data ++ natToDec offset

/-- `parse_systemd_fd`: `"systemd"` is index 0; `"systemd#N"` parses `N` as
`usize` and subtracts one (`checked_sub(1)`, so `N = 0` is an error); any
other string is rejected. -/
def parse_systemd_fd (s : List Char) : Except SystemdParseError Nat :=
  if s = "systemd".data then .ok 0
  else if "systemd#".data.isPrefixOf s then
    match parseUsize (s.drop 8) with
    | none => .error .invalidInt
    | some 0 => .error .zeroIndex
    | some (n + 1) => .ok n
  else .error .notSystemd

/-! ### Association-list model of `BTreeMap<String, _>` -/

/-- Three-way comparison of characters by code point.  Rust's `Ord` for
`str` compares UTF-8 bytes, and UTF-8 byte order coincides with code
point order. -/
def charCmp (a b : Char) : Ordering := compare a.toNat b.toNat

/-- Lexicographic three-way comparison of character lists. -/
def charListCmp : List Char → List Char → Ordering
  | [], [] => .eq
  | [], _ :: _ => .lt
  | _ :: _, [] => .gt
  | a :: as, b :: bs =>
    match charCmp a b with
    | .eq => charListCmp as bs
    | o => o

/-- `Ord::cmp` for strings (lexicographic). -/
def strCmp (a b : String) : Ordering := charListCmp a.data b.data

/-- The strict order on strings induced by `strCmp`; `BTreeMap` iteration
is ascending with respect to it. -/
def strLt (a b : String) : Prop := strCmp a b = .lt

/-- Insertion into a key-sorted association list, modelling
`BTreeMap::insert`: an existing binding for the key is replaced. -/
def btInsert {α : Type} (k : String) (v : α) : List (String × α) → List (String × α)
  | [] => [(k, v)]
  | (k', v') :: rest =>
    match strCmp k k' with
    | .lt => (k, v) :: (k', v') :: rest
    | .eq => (k, v) :: rest
    | .gt => (k', v') :: btInsert k v rest

/-- Lookup in the association-list model, modelling `BTreeMap::get`. -/
def btLookup {α : Type} (k : String) : List (String × α) → Option α
  | [] => none
  | (k', v') :: rest => if k = k' then some v' else btLookup k rest

/-- Building a `BTreeMap` by inserting a sequence of key/value pairs in
order; serde's map visitor and `collect::<BTreeMap<_, _>>()` both do
this, so a later pair with the same key replaces an earlier one. -/
def btFromList {α : Type} (pairs : List (String × α)) : List (String × α) :=
  pairs.foldl (fun m kv => btInsert kv.1 kv.2 m) []

/-! ### MessagePack values (`rmpv::Value`) and decode errors -/

/-- The `io::ErrorKind` distinction the decoder inspects. -/
inductive IoErrorKind
  | unexpectedEof
  | otherKind
deriving DecidableEq

/-- An `io::Error`, to the granularity the decoder inspects. -/
structure IoError where
  kind : IoErrorKind
deriving DecidableEq

/-- rmp-serde `decode::Error`, to the granularity `FluentDecoder` matches
on: I/O failures while reading a marker or while reading data (each
carrying an `io::ErrorKind`), and every other decode failure collapsed
into one case. -/
inductive RmpDecodeError
  | invalidMarkerRead (kind : IoErrorKind)
  | invalidDataRead (kind : IoErrorKind)
  | otherError
deriving DecidableEq

/-- `rmpv::Value`.  Integers carry their mathematical value (an rmpv
`Integer` holds either a `u64` or a negative `i64`, so the value lies in
`[-2^63, 2^64)`); floats carry their IEEE bit patterns. -/
inductive RmpValue
  | nil
  | boolean (b : Bool)
  | integer (i : Int)
  | f32 (bits : Nat)
  | f64 (bits : Nat)
  | str (s : String)
  | binary (bytes : List Nat)
  | array (items : List RmpValue)
  | map (entries : List (RmpValue × RmpValue))
  | ext (code : Int) (payload : List Nat)

/-- Decimal representation of an integer (Rust `Display` for `i64`/`u64`,
which `rmpv::Integer::to_string` delegates to). -/
def intToDec (i : Int) : List Char :=
  if i < 0 then '-' :: natToDec (-i).toNat else natToDec i.toNat

/-- Comma-and-space joining used by rmpv's list-like `Display` output. -/
def joinComma : List String → String
  | [] => ""
  | [x] => x
  | x :: y :: rest => x ++ ", " ++ joinComma (y :: rest)

/-- Rust `Debug` for a byte vector: decimal bytes in square brackets. -/
def displayByteList (bs : List Nat) : String :=
  "[" ++ joinComma (bs.map fun b => String.mk (natToDec b)) ++ "]"

/-- Rust `Display` text of an `f32` given by its bit pattern.  `NaN`,
the infinities and the signed zeros are rendered exactly as Rust prints
them; a finite integral value of magnitude below 2^24 is rendered as its
exact decimal integer, which is what Rust's shortest-round-trip
formatting prints for those values (so `1.0f32` displays as `1`,
colliding with the display of `Integer(1)`); every other finite value is
abstracted to a bit-pattern token `f32:…` — a model abstraction of the
shortest-round-trip digits that no claim depends on (such values are
never rendered as a bare integer by Rust either). -/
def f32Display (b : Nat) : String :=
  let s := b / 2 ^ 31 % 2
  let e := b / 2 ^ 23 % 2 ^ 8
  let m := b % 2 ^ 23
  if e = 255 then
    if m = 0 then (if s = 1 then "-inf" else "inf") else "NaN"
  else if e = 0 ∧ m = 0 then (if s = 1 then "-0" else "0")
  else if 127 ≤ e ∧ e ≤ 150 ∧ m % 2 ^ (150 - e) = 0 then
    (if s = 1 then "-" else "") ++ String.mk (natToDec ((2 ^ 23 + m) / 2 ^ (150 - e)))
  else "f32:" ++ String.mk (natToDec b)

/-- Rust `Display` text of an `f64` given by its bit pattern, with the
same conventions as `f32Display`: special values exact, finite integral
values of magnitude below 2^53 as their exact decimal integer, the rest
abstracted to a bit-pattern token. -/
def f64Display (b : Nat) : String :=
  let s := b / 2 ^ 63 % 2
  let e := b / 2 ^ 52 % 2 ^ 11
  let m := b % 2 ^ 52
  if e = 2047 then
    if m = 0 then (if s = 1 then "-inf" else "inf") else "NaN"
  else if e = 0 ∧ m = 0 then (if s = 1 then "-0" else "0")
  else if 1023 ≤ e ∧ e ≤ 1075 ∧ m % 2 ^ (1075 - e) = 0 then
    (if s = 1 then "-" else "") ++ String.mk (natToDec ((2 ^ 52 + m) / 2 ^ (1075 - e)))
  else "f64:" ++ String.mk (natToDec b)

/-- rmpv's `Display` for `Value` (the "canonical display string" used to
stringify map keys): `nil`, bare booleans and integers, quoted strings,
`Debug`-style byte lists, bracketed arrays, braced `k: v` maps, and
`[code, bytes]` for ext values.  Floats render through
`f32Display`/`f64Display`, which match Rust's formatting on special
values and on small integral values — in particular the real collision
between the displays of `F32(1.0)` and `Integer(1)` is representable —
and abstract the remaining finite values by their bit pattern. -/
def displayValue : RmpValue → String
  | .nil => "nil"
  | .boolean true => "true"
  | .boolean false => "false"
  | .integer i => String.mk (intToDec i)
  | .f32 bits => f32Display bits
  | .f64 bits => f64Display bits
  | .str s => "\"" ++ s ++ "\""
  | .binary bs => displayByteList bs
  | .array items =>
    "[" ++ joinComma (items.attach.map fun x => displayValue x.1) ++ "]"
  | .map entries =>
    "\x7b" ++ joinComma (entries.attach.map fun x =>
      displayValue x.1.1 ++ ": " ++ displayValue x.1.2) ++ "\x7d"
  | .ext code payload =>
    "[" ++ String.mk (intToDec code) ++ ", " ++ displayByteList payload ++ "]"
decreasing_by
  · have := List.sizeOf_lt_of_mem x.2
    simp only [RmpValue.array.sizeOf_spec]
    omega
  · have := List.sizeOf_lt_of_mem x.2
    obtain ⟨⟨a, b⟩, hm⟩ := x
    simp only [Prod.mk.sizeOf_spec] at this ⊢
    simp only [RmpValue.map.sizeOf_spec]
    omega
  · have := List.sizeOf_lt_of_mem x.2
    obtain ⟨⟨a, b⟩, hm⟩ := x
    simp only [Prod.mk.sizeOf_spec] at this ⊢
    simp only [RmpValue.map.sizeOf_spec]
    omega

/-! ### Normalized event values (`event::Value`) and the MessagePack mapping -/

/-- The downstream event value model (`event::Value`): `Bytes` is a byte
list, `Timestamp` a `DateTime<Utc>` as seconds and nanoseconds, floats
carry IEEE f64 bit patterns, and `Map` is the sorted `BTreeMap` model. -/
inductive Value
  | bytes (bs : List Nat)
  | integer (i : Int)
  | float (bits : Nat)
  | boolean (b : Bool)
  | timestamp (secs : Int) (nanos : Nat)
  | vmap (entries : List (String × Value))
  | varray (items : List Value)
  | null

/-- UTF-8 encoding of one scalar value (Rust `String::into_bytes`). -/
def utf8Char (c : Char) : List Nat :=
  let n := c.toNat
  if n < 128 then [n]
  else if n < 2048 then [192 + n / 64, 128 + n % 64]
  else if n < 65536 then [224 + n / 4096, 128 + n / 64 % 64, 128 + n % 64]
  else [240 + n / 262144, 128 + n / 4096 % 64, 128 + n / 64 % 64, 128 + n % 64]

/-- UTF-8 bytes of a string. -/
def utf8Bytes (s : String) : List Nat :=
  (s.data.map utf8Char).flatten

/-- Lossless IEEE widening of an f32 bit pattern to an f64 bit pattern
(Rust `f32 as f64`, i.e. `impl From<f32> for f64`).  NaN payloads are
widened by the same mantissa shift; no claim depends on NaN payloads. -/
def f32BitsToF64 (b : Nat) : Nat :=
  let s := b / 2 ^ 31 % 2
  let e := b / 2 ^ 23 % 2 ^ 8
  let m := b % 2 ^ 23
  if e = 255 then s * 2 ^ 63 + 2047 * 2 ^ 52 + m * 2 ^ 29
  else if e = 0 then
    if m = 0 then s * 2 ^ 63
    else
      let k := Nat.log2 m
      s * 2 ^ 63 + (874 + k) * 2 ^ 52 + (m - 2 ^ k) * 2 ^ (52 - k)
  else s * 2 ^ 63 + (e + 896) * 2 ^ 52 + m * 2 ^ 29

/-- `From<FluentValue> for Value` (`src/sources/fluent.rs`): nil, booleans
and binary map directly; integers inside the `i64` range stay integers and
integers outside it become the bytes of their decimal string; `f32` widens
to `f64`; strings become their UTF-8 bytes; arrays map recursively; maps
recurse on values and stringify each key by its canonical display form,
collecting into a `BTreeMap`; an ext value becomes the two-entry map
`{"msgpack_extension_code": code, "bytes": payload}`. -/
def fluentToValue : RmpValue → Value
  | .nil => .null
  | .boolean b => .boolean b
  | .integer i =>
    if -(2 ^ 63) ≤ i ∧ i < 2 ^ 63 then .integer i
    else .bytes (utf8Bytes (String.mk (intToDec i)))
  | .f32 bits => .float (f32BitsToF64 bits)
  | .f64 bits => .float bits
  | .str s => .bytes (utf8Bytes s)
  | .binary bs => .bytes bs
  | .array items => .varray (items.attach.map fun x => fluentToValue x.1)
  | .map entries =>
    .vmap (btFromList (entries.attach.map fun x =>
      (displayValue x.1.1, fluentToValue x.1.2)))
  | .ext code payload =>
    .vmap (btInsert "bytes" (.bytes payload)
      (btInsert "msgpack_extension_code" (.integer code) []))
decreasing_by
  · have := List.sizeOf_lt_of_mem x.2
    simp only [RmpValue.array.sizeOf_spec]
    omega
  · have := List.sizeOf_lt_of_mem x.2
    obtain ⟨⟨a, b⟩, hm⟩ := x
    simp only [Prod.mk.sizeOf_spec] at this ⊢
    simp only [RmpValue.map.sizeOf_spec]
    omega

/-! ### EventTime extension decoder (`FluentEventTimeVisitor::visit_seq`) -/

/-- Big-endian value of a byte list (`u32::from_be_bytes` when the list
has four elements). -/
def beU32 (bs : List Nat) : Nat :=
  bs.foldl (fun acc b => acc * 256 + b % 256) 0

/-- Validity of chrono 0.4 `Utc.timestamp(secs, nsecs)`: the underlying
`NaiveDateTime::from_timestamp_opt` yields a value only when `nsecs` is
below two billion (values of at least 10^9 but below 2*10^9 encode leap
seconds) and `secs` lies inside chrono's representable date range, which
contains every value far beyond `[0, 2^32)`; `Utc.timestamp` unwraps the
option and panics otherwise. -/
def chronoTimestampOpt (secs : Int) (nanos : Nat) : Option (Int × Nat) :=
  if nanos < 2000000000 ∧ -8334601228800 ≤ secs ∧ secs ≤ 8210266876799 then
    some (secs, nanos)
  else none

/-- Outcome of `FluentEventTimeVisitor::visit_seq`: a serde error for a
bad ext tag, a serde error for a bad payload length, a panic (chrono
`unwrap`), or a composed UTC timestamp. -/
inductive EventTimeVisit
  | errorTag (tag : Nat)
  | errorLen (len : Nat)
  | panicked
  | composed (secs : Int) (nanos : Nat)
deriving DecidableEq

/-- `FluentEventTimeVisitor::visit_seq` on a decoded `(tag, bytes)` pair:
rejects ext tags other than 0, rejects payloads whose length is not 8,
then composes `Utc.timestamp` from the big-endian `u32` seconds in bytes
0..4 and the big-endian `u32` nanoseconds in bytes 4..8. -/
def fluentEventTimeVisitSeq (tag : Nat) (bytes : List Nat) : EventTimeVisit :=
  if tag ≠ 0 then .errorTag tag
  else if bytes.length ≠ 8 then .errorLen bytes.length
  else
    let seconds := beU32 (bytes.take 4)
    let nanoseconds := beU32 (bytes.drop 4)
    match chronoTimestampOpt (Int.ofNat seconds) nanoseconds with
    | some (s, n) => .composed s n
    | none => .panicked

/-! ### Fluent data model (`src/sources/fluent.rs`) -/

/-- `FluentTimestamp`: a plain MessagePack integer of Unix seconds, or the
EventTime extension's `(seconds, nanoseconds)` pair (each a `u32`). -/
inductive FluentTimestamp
  | unix (secs : Int)
  | eventTime (secs : Nat) (nanos : Nat)

/-- `FluentEntry`: a MessagePack 2-array of timestamp and record.  A
`FluentRecord` is `BTreeMap<String, FluentValue>`, modelled as the sorted
association list. -/
structure FluentEntry where
  timestamp : FluentTimestamp
  record : List (String × RmpValue)

/-- `FluentFrame`: the post-decode `(tag, timestamp, record)` unit. -/
structure FluentFrame where
  tag : String
  timestamp : FluentTimestamp
  record : List (String × RmpValue)

/-- `FluentMessageOptions`: `size` and `chunk` are optional, `compressed`
is required when options are present. -/
structure FluentMessageOptions where
  size : Option Nat
  chunk : Option String
  compressed : String

/-- `FluentMessage`: the seven decoded shapes of a top-level message. -/
inductive FluentMessage
  | message (tag : String) (timestamp : FluentTimestamp)
      (record : List (String × RmpValue))
  | messageWithOptions (tag : String) (timestamp : FluentTimestamp)
      (record : List (String × RmpValue)) (options : FluentMessageOptions)
  | forward (tag : String) (entries : List FluentEntry)
  | forwardWithOptions (tag : String) (entries : List FluentEntry)
      (options : FluentMessageOptions)
  | packedForward (tag : String) (bin : List Nat)
  | packedForwardWithOptions (tag : String) (bin : List Nat)
      (options : FluentMessageOptions)
  | heartbeat (v : RmpValue)

/-- `DecodeError` of the Fluent source. -/
inductive DecodeError
  | ioError (e : IoError)
  | decodeError (e : RmpDecodeError)
  | unknownCompression (compression : String)
  | unexpectedValue (v : RmpValue)

/-- `TcpIsErrorFatal for DecodeError`: only I/O errors are fatal. -/
def DecodeError.is_error_fatal : DecodeError → Bool
  | .ioError _ => true
  | .decodeError _ => false
  | .unknownCompression _ => false
  | .unexpectedValue _ => false

/-- Outcomes of the external collaborators the decoder calls into: the
rmp-serde deserializer for a `FluentMessage` and for an
`Option<FluentEntry>` (each returning the cursor position, i.e. the
consumed byte count, together with the result), and flate2's
`MultiGzDecoder::read_to_end`.  Theorems quantify over these, so they
cover every outcome the external crates can produce. -/
structure Externals where
  desMessage : List Nat → Nat × Except RmpDecodeError FluentMessage
  desEntry : List Nat → Nat × Except RmpDecodeError (Option FluentEntry)
  gunzip : List Nat → Except IoError (List Nat)

/-- `FluentEntryStreamDecoder::decode`: empty input means no entry;
otherwise deserialize one `Option<FluentEntry>` from the front, return
`Ok(None)` without consuming on a data-read unexpected-EOF, and in every
other case advance the buffer by the deserializer's position and surface
the result (note that, unlike `FluentDecoder::decode`, only
`InvalidDataRead` is checked for EOF here, not `InvalidMarkerRead`). -/
def entryStreamDecode (ext : Externals) (src : List Nat) :
    List Nat × Except DecodeError (Option FluentEntry) :=
  if src = [] then (src, .ok none)
  else
    match ext.desEntry src with
    | (_, .error (.invalidDataRead .unexpectedEof)) => (src, .ok none)
    | (pos, .error e) => (src.drop pos, .error (.decodeError e))
    | (pos, .ok entry) => (src.drop pos, .ok entry)

/-- The `while let Some(entry) = decoder.decode(&mut buf)?` loop of
`handle_message` over a packed-forward payload, with explicit fuel: it
returns the entries decoded in order, the remaining buffer, and how the
loop ended (`Ok` when `decode` returned no entry, or the first error).
`none` models non-termination of the source loop, which is unreachable
when the deserializer consumes at least one byte per decoded entry; the
callers pass `buf.length + 1` fuel, which the progress lemma shows is
enough. -/
def entryStreamLoop (ext : Externals) :
    Nat → List Nat → Option (List FluentEntry × List Nat × Except DecodeError Unit)
  | 0, _ => none
  | fuel + 1, buf =>
    match entryStreamDecode ext buf with
    | (buf', .ok (some entry)) =>
      match entryStreamLoop ext fuel buf' with
      | none => none
      | some (entries, finalBuf, res) => some (entry :: entries, finalBuf, res)
    | (buf', .ok none) => some ([], buf', .ok ())
    | (buf', .error e) => some ([], buf', .error e)

/-- Frames produced from a list of entries under one tag; the tag is
cloned into every frame. -/
def framesOfEntries (tag : String) (entries : List FluentEntry) : List FluentFrame :=
  entries.map fun e => ⟨tag, e.timestamp, e.record⟩

/-- `FluentDecoder`: the queue of frames not yet handed out. -/
structure FluentDecoder where
  unread_frames : List FluentFrame

/-- Materialization of a `PackedForwardWithOptions` payload according to
`options.compressed`: `"gzip"` decompresses with the multi-member-tolerant
gzip decoder and converts an I/O failure into `DecodeError::IO`; `"text"`
is the identity; any other string is `UnknownCompression`. -/
def materializePacked (ext : Externals) (options : FluentMessageOptions)
    (bin : List Nat) : Except DecodeError (List Nat) :=
  match options.compressed with
  | "gzip" => (ext.gunzip bin).mapError DecodeError.ioError
  | "text" => .ok bin
  | s => .error (.unknownCompression s)

/-- `FluentDecoder::handle_message`: `Message*` appends one frame,
`Forward*` appends one frame per entry, `PackedForward` runs the
entry-stream sub-decoder over the raw payload pushing each decoded entry
(so entries pushed before a failing entry stay pushed),
`PackedForwardWithOptions` first materializes the payload according to
`options.compressed` (`"text"` is the identity, `"gzip"` gzip-decompresses
and turns I/O failure into `DecodeError::IO`, anything else is
`UnknownCompression`), and a heartbeat appends nothing, erroring with
`UnexpectedValue` when its payload is not nil. -/
def FluentDecoder.handle_message (ext : Externals) (self : FluentDecoder) :
    FluentMessage → Option (FluentDecoder × Except DecodeError Unit)
  | .message tag timestamp record =>
    some (⟨self.unread_frames ++ [⟨tag, timestamp, record⟩]⟩, .ok ())
  | .messageWithOptions tag timestamp record _ =>
    some (⟨self.unread_frames ++ [⟨tag, timestamp, record⟩]⟩, .ok ())
  | .forward tag entries =>
    some (⟨self.unread_frames ++ framesOfEntries tag entries⟩, .ok ())
  | .forwardWithOptions tag entries _ =>
    some (⟨self.unread_frames ++ framesOfEntries tag entries⟩, .ok ())
  | .packedForward tag bin =>
    match entryStreamLoop ext (bin.length + 1) bin with
    | none => none
    | some (entries, _, res) =>
      some (⟨self.unread_frames ++ framesOfEntries tag entries⟩, res)
  | .packedForwardWithOptions tag bin options =>
    match materializePacked ext options bin with
    | .error e => some (self, .error e)
    | .ok buf =>
      match entryStreamLoop ext (buf.length + 1) buf with
      | none => none
      | some (entries, _, res) =>
        some (⟨self.unread_frames ++ framesOfEntries tag entries⟩, res)
  | .heartbeat .nil => some (self, .ok ())
  | .heartbeat v => some (self, .error (.unexpectedValue v))

/-- The unexpected-EOF test `FluentDecoder::decode` applies to a
deserialization failure (both marker-read and data-read are checked). -/
def rmpUnexpectedEof : RmpDecodeError → Bool
  | .invalidMarkerRead .unexpectedEof => true
  | .invalidDataRead .unexpectedEof => true
  | _ => false

/-- `FluentDecoder::decode`: pop a pending frame if any; return `Ok(None)`
on an empty buffer; otherwise deserialize one `FluentMessage` from the
front of the buffer, returning `Ok(None)` without consuming on an
unexpected-EOF in marker- or data-read; in every other case advance the
buffer by the deserializer's position, then on success dispatch through
`handle_message` and pop the queue's head (which is `None` when the
message expanded to zero frames).  The result triple is (decoder state,
remaining buffer, result); `none` models non-termination inside
`handle_message`. -/
def FluentDecoder.decode (ext : Externals) (self : FluentDecoder) (src : List Nat) :
    Option (FluentDecoder × List Nat × Except DecodeError (Option FluentFrame)) :=
  match self.unread_frames with
  | frame :: rest => some (⟨rest⟩, src, .ok (some frame))
  | [] =>
    if src = [] then some (self, src, .ok none)
    else
      match ext.desMessage src with
      | (pos, .error e) =>
        if rmpUnexpectedEof e then some (self, src, .ok none)
        else some (self, src.drop pos, .error (.decodeError e))
      | (pos, .ok message) =>
        match self.handle_message ext message with
        | none => none
        | some (next, .ok ()) =>
          match next.unread_frames with
          | [] => some (next, src.drop pos, .ok none)
          | frame :: rest => some (⟨rest⟩, src.drop pos, .ok (some frame))
        | some (next, .error e) => some (next, src.drop pos, .error e)

/-! ### Connection handler (`handle_stream` in `src/sources/util/tcp.rs`) -/

/-- The `take_while` predicate of `handle_stream`: keep consuming the
framed stream while items are frames or non-fatal errors; the stream (and
with it the connection's forwarding) stops at the first fatal error. -/
def keepConsuming : Except DecodeError FluentFrame → Bool
  | .ok _ => true
  | .error e => !e.is_error_fatal

/-- The items of the framed stream that `handle_stream` consumes, i.e.
everything up to but excluding the first fatal error. -/
def consumedItems (items : List (Except DecodeError FluentFrame)) :
    List (Except DecodeError FluentFrame) :=
  items.takeWhile keepConsuming

/-! ### Event builder (`FluentSource::build_event`) -/

/-- The downstream `log_schema()` keys the builder can draw on; vector's
`LogSchema` has exactly these four configurable keys (there is no tag
key). -/
structure LogSchema where
  host_key : String
  message_key : String
  source_type_key : String
  timestamp_key : String

/-- `From<FluentTimestamp> for Value`: both timestamp forms become a
`Value::Timestamp`. -/
def timestampValue : FluentTimestamp → Value
  | .unix secs => .timestamp secs 0
  | .eventTime secs nanos => .timestamp (Int.ofNat secs) nanos

/-- `FluentSource::build_event`: starting from an empty log event, insert
the host at `log_schema().host_key()`, the timestamp at
`log_schema().timestamp_key()`, the tag at the literal key `"tag"`, and
then every record pair flat (`insert_flat` takes the key verbatim as a
top-level field name).  The log event's field map is the `BTreeMap`
model; path interpretation of dotted schema keys by `LogEvent::insert` is
not modelled, keys are taken verbatim. -/
def build_event (schema : LogSchema) (frame : FluentFrame) (host : List Nat) :
    List (String × Value) :=
  let log : List (String × Value) := btInsert schema.host_key (.bytes host) []
  let log := btInsert schema.timestamp_key (timestampValue frame.timestamp) log
  let log := btInsert "tag" (.bytes (utf8Bytes frame.tag)) log
  frame.record.foldl (fun l kv => btInsert kv.1 (fluentToValue kv.2) l) log

/-! ### Concrete deserializer outcomes used in counterexamples and witnesses -/

/-- rmp-serde's behavior on the one-byte buffer `[0xc0]` (MessagePack
nil): the untagged `FluentMessage` decode consumes the one byte and
produces `Heartbeat(Nil)`. -/
def extHeartbeat : Externals where
  desMessage := fun _ => (1, .ok (.heartbeat .nil))
  desEntry := fun _ => (0, .error .otherError)
  gunzip := fun b => .ok b

/-- rmp-serde's behavior on buffers whose first byte is the reserved
MessagePack marker `0xc1`, which encodes no value: the marker byte is
consumed and deserialization fails with a non-EOF decode error.  The
consumed count is written `min 1 (length b)` so that the progress
property — at least one byte consumed from every nonempty buffer — holds
for this deserializer on all inputs. -/
def extReserved : Externals where
  desMessage := fun b => (min 1 b.length, .error .otherError)
  desEntry := fun b => (min 1 b.length, .error .otherError)
  gunzip := fun b => .ok b

/-- A deserializer outcome that fails with an unexpected-EOF while
reading a marker, as rmp-serde does on the one-byte buffer `[0x92]` (a
fixarray-2 header with no elements following): the header byte is
consumed and the read of the first element's marker hits end of input. -/
def extMarkerEof : Externals where
  desMessage := fun _ => (0, .error (.invalidMarkerRead .unexpectedEof))
  desEntry := fun _ => (1, .error (.invalidMarkerRead .unexpectedEof))
  gunzip := fun b => .ok b

/-- A deserializer that decodes one empty-record entry from every
nonempty buffer, consuming one byte. -/
def extProgress : Externals where
  desMessage := fun _ => (0, .error .otherError)
  desEntry := fun _ => (1, .ok (some ⟨.unix 0, []⟩))
  gunzip := fun b => .ok b

/-- An entry deserializer that succeeds once and then fails: on the
buffer `[1, 2]` it consumes one byte and yields an empty-record entry;
on everything else (in particular on the remainder `[2]`) it consumes
one byte and fails. -/
def extOneGood : Externals where
  desMessage := fun _ => (0, .error .otherError)
  desEntry := fun b =>
    if b = [1, 2] then (1, .ok (some ⟨.unix 0, []⟩)) else (1, .error .otherError)
  gunzip := fun b => .ok b

/-! ## Theorems -/

/-! ### Decimal formatting and parsing -/

theorem parseDecAux_append (acc : Nat) (xs ys : List Char) :
    parseDecAux acc (xs ++ ys) =
      match parseDecAux acc xs with
      | some a => parseDecAux a ys
      | none => none := by
  induction xs generalizing acc with
  | nil => rfl
  | cons c rest ih =>
    simp only [List.cons_append, parseDecAux]
    cases charToDigit c with
    | some d => exact ih _
    | none => rfl

theorem charToDigit_digitChar (d : Nat) (h : d < 10) :
    charToDigit (digitChar d) = some d := by
  interval_cases d <;> decide

theorem digitChar_range (d : Nat) (h : d < 10) :
    48 ≤ (digitChar d).toNat ∧ (digitChar d).toNat ≤ 57 := by
  interval_cases d <;> decide

theorem natToDec_ne_nil (n : Nat) : natToDec n ≠ [] := by
  rw [natToDec]
  split <;> simp

theorem natToDec_mem_range (n : Nat) :
    ∀ c ∈ natToDec n, 48 ≤ c.toNat ∧ c.toNat ≤ 57 := by
  induction n using Nat.strong_induction_on with
  | _ n ih =>
    intro c hc
    rw [natToDec] at hc
    by_cases h : n < 10
    · rw [if_pos h] at hc
      simp only [List.mem_singleton] at hc
      exact hc ▸ digitChar_range n h
    · rw [if_neg h] at hc
      rcases List.mem_append.1 hc with h1 | h1
      · exact ih (n / 10) (Nat.div_lt_self (by omega) (by omega)) c h1
      · simp only [List.mem_singleton] at h1
        exact h1 ▸ digitChar_range (n % 10) (Nat.mod_lt _ (by omega))

theorem parseDecAux_natToDec (n : Nat) :
    ∀ acc, parseDecAux acc (natToDec n) =
      some (acc * 10 ^ (natToDec n).length + n) := by
  induction n using Nat.strong_induction_on with
  | _ n ih =>
    intro acc
    by_cases h : n < 10
    · rw [natToDec, if_pos h]
      simp [parseDecAux, charToDigit_digitChar n h]
    · rw [natToDec, if_neg h]
      rw [parseDecAux_append, ih (n / 10) (Nat.div_lt_self (by omega) (by omega)) acc]
      simp only [parseDecAux, charToDigit_digitChar (n % 10) (Nat.mod_lt _ (by omega))]
      simp only [List.length_append, List.length_singleton]
      congr 1
      rw [pow_succ]
      calc (acc * 10 ^ (natToDec (n / 10)).length + n / 10) * 10 + n % 10
          = acc * (10 ^ (natToDec (n / 10)).length * 10) + (10 * (n / 10) + n % 10) := by
            ring
        _ = acc * (10 ^ (natToDec (n / 10)).length * 10) + n := by
            rw [Nat.div_add_mod]

theorem stripPlus_natToDec (n : Nat) : stripPlus (natToDec n) = natToDec n := by
  cases hd : natToDec n with
  | nil => exact absurd hd (natToDec_ne_nil n)
  | cons c rest =>
    have hc : 48 ≤ c.toNat ∧ c.toNat ≤ 57 :=
      natToDec_mem_range n c (by rw [hd]; exact List.mem_cons_self c rest)
    have hne : c ≠ '+' := by
      intro h
      rw [h] at hc
      revert hc
      decide
    simp [stripPlus, hne]

theorem parseUsize_natToDec (n : Nat) (h : n < 2 ^ 64) :
    parseUsize (natToDec n) = some n := by
  unfold parseUsize
  rw [stripPlus_natToDec]
  rw [if_neg (by simpa using natToDec_ne_nil n)]
  rw [parseDecAux_natToDec n 0]
  have h' : 0 * 10 ^ (natToDec n).length + n < 2 ^ 64 := by omega
  simp [h']
  omega

/-! ### C8: listen-address display/parse round-trip -/

/-- C8 (amended): the display form `systemd socket #N` of `SystemdFd(N)` is
not in the parser's grammar; the round-trip law that does hold is that
parsing `systemd#M` yields `SystemdFd(M - 1)`, i.e. for every offset `N`
with `N + 1` representable as a `usize`, parsing `"systemd#" ++ (N + 1)`
yields `SystemdFd(N)` again. -/
theorem systemd_fd_parse_roundtrip (n : Nat) (h : n + 1 < 2 ^ 64) :
    parse_systemd_fd ("systemd#".data ++ natToDec (n + 1)) = .ok n := by
  unfold parse_systemd_fd
  rw [if_neg ?hne]
  case hne =>
    intro heq
    have hlen := congrArg List.length heq
    have h1 : 1 ≤ (natToDec (n + 1)).length :=
      List.length_pos.2 (natToDec_ne_nil (n + 1))
    simp only [List.length_append, List.length_cons, List.length_nil] at hlen
    omega
  rw [if_pos ?hpre]
  case hpre =>
    exact List.isPrefixOf_iff_prefix.2 (List.prefix_append _ _)
  rw [List.drop_left' (by decide)]
  rw [parseUsize_natToDec (n + 1) h]

/-- C8 (counterexample): round-tripping the display form of `SystemdFd(0)`
through the listen-address parser does not yield `SystemdFd(0)`; the parser
rejects the string `systemd socket #0` outright. -/
theorem systemd_fd_display_parse_fails :
    parse_systemd_fd (displaySocketListenAddr (.systemdFd 0)) =
      .error .notSystemd := by
  have h0 : natToDec 0 = ['0'] := by
    rw [natToDec]
    decide
  show parse_systemd_fd ("systemd socket #".data ++ natToDec 0) = .error .notSystemd
  rw [h0]
  rfl

/-- Witness for `systemd_fd_parse_roundtrip` at `N = 2`
(the repository's own test case `systemd#3`). -/
theorem systemd_fd_parse_roundtrip_witness :
    2 + 1 < 2 ^ 64 ∧
      parse_systemd_fd ("systemd#".data ++ natToDec (2 + 1)) = .ok 2 :=
  ⟨by decide, systemd_fd_parse_roundtrip 2 (by decide)⟩

/-! ### String comparator lemmas -/

theorem charCmp_eq_iff (a b : Char) : charCmp a b = .eq ↔ a = b := by
  constructor
  · intro h
    rw [charCmp, Nat.compare_eq_eq] at h
    unfold Char.toNat at h
    exact Char.eq_of_val_eq (UInt32.eq_of_val_eq (Fin.eq_of_val_eq h))
  · intro h
    subst h
    rw [charCmp, Nat.compare_eq_eq]

theorem charCmp_lt_iff (a b : Char) : charCmp a b = .lt ↔ a.toNat < b.toNat := by
  rw [charCmp, Nat.compare_eq_lt]

theorem charCmp_gt_iff_lt (a b : Char) : charCmp a b = .gt ↔ charCmp b a = .lt := by
  rw [charCmp, charCmp, Nat.compare_eq_gt, Nat.compare_eq_lt]

theorem charListCmp_self : ∀ l : List Char, charListCmp l l = .eq := by
  intro l
  induction l with
  | nil => rfl
  | cons a rest ih =>
    simp only [charListCmp, (charCmp_eq_iff a a).2 rfl]
    exact ih

theorem charListCmp_eq_eq : ∀ as bs : List Char, charListCmp as bs = .eq → as = bs := by
  intro as
  induction as with
  | nil =>
    intro bs h
    cases bs with
    | nil => rfl
    | cons b bs' => simp [charListCmp] at h
  | cons a as' ih =>
    intro bs h
    cases bs with
    | nil => simp [charListCmp] at h
    | cons b bs' =>
      simp only [charListCmp] at h
      rcases hab : charCmp a b with - | - | - <;> rw [hab] at h
      · cases h
      · rw [(charCmp_eq_iff a b).1 hab, ih bs' h]
      · cases h

theorem charListCmp_gt_iff_lt :
    ∀ as bs : List Char, charListCmp as bs = .gt ↔ charListCmp bs as = .lt := by
  intro as
  induction as with
  | nil =>
    intro bs
    cases bs with
    | nil => simp [charListCmp]
    | cons b bs' => simp [charListCmp]
  | cons a as' ih =>
    intro bs
    cases bs with
    | nil => simp [charListCmp]
    | cons b bs' =>
      simp only [charListCmp]
      rcases hab : charCmp a b with - | - | -
      · have hba : charCmp b a = .gt := by
          rw [charCmp_gt_iff_lt]
          exact hab
        rw [hba]
        simp
      · have hba : charCmp b a = .eq := by
          rw [charCmp_eq_iff] at hab ⊢
          exact hab.symm
        rw [hba]
        exact ih bs'
      · have hba : charCmp b a = .lt := (charCmp_gt_iff_lt a b).1 hab
        rw [hba]
        simp

theorem charListCmp_lt_trans :
    ∀ as bs cs : List Char, charListCmp as bs = .lt → charListCmp bs cs = .lt →
      charListCmp as cs = .lt := by
  intro as
  induction as with
  | nil =>
    intro bs cs h1 h2
    cases bs with
    | nil => simp [charListCmp] at h1
    | cons b bs' =>
      cases cs with
      | nil => simp [charListCmp] at h2
      | cons c cs' => simp [charListCmp]
  | cons a as' ih =>
    intro bs cs h1 h2
    cases bs with
    | nil => simp [charListCmp] at h1
    | cons b bs' =>
      cases cs with
      | nil => simp [charListCmp] at h2
      | cons c cs' =>
        simp only [charListCmp] at h1 h2 ⊢
        rcases hab : charCmp a b with - | - | -
        · rcases hbc : charCmp b c with - | - | -
          · have hac : charCmp a c = .lt := by
              rw [charCmp_lt_iff] at hab hbc ⊢
              omega
            rw [hac]
          · have hbc' := (charCmp_eq_iff b c).1 hbc
            subst hbc'
            rw [hab]
          · rw [hbc] at h2
            simp at h2
        · have hab' := (charCmp_eq_iff a b).1 hab
          subst hab'
          rw [hab] at h1
          dsimp only at h1
          rcases hbc : charCmp a c with - | - | -
          · rfl
          · rw [hbc] at h2
            dsimp only at h2 ⊢
            exact ih bs' cs' h1 h2
          · rw [hbc] at h2
            simp at h2
        · rw [hab] at h1
          simp at h1

theorem strLt_trans {a b c : String} (h1 : strLt a b) (h2 : strLt b c) : strLt a c :=
  charListCmp_lt_trans a.data b.data c.data h1 h2

theorem strCmp_eq_eq {a b : String} (h : strCmp a b = .eq) : a = b := by
  exact String.ext (charListCmp_eq_eq a.data b.data h)

theorem strCmp_gt_lt {a b : String} (h : strCmp a b = .gt) : strLt b a :=
  (charListCmp_gt_iff_lt a.data b.data).1 h

theorem strLt_ne {a b : String} (h : strLt a b) : a ≠ b := by
  intro heq
  subst heq
  rw [strLt, strCmp, charListCmp_self] at h
  cases h

theorem strCmp_gt_ne {a b : String} (h : strCmp a b = .gt) : a ≠ b := by
  intro heq
  subst heq
  rw [strCmp, charListCmp_self] at h
  cases h

/-! ### Association-list `BTreeMap` lemmas -/

theorem btLookup_btInsert_self {α : Type} (k : String) (v : α) (m : List (String × α)) :
    btLookup k (btInsert k v m) = some v := by
  induction m with
  | nil => simp [btInsert, btLookup]
  | cons hd rest ih =>
    obtain ⟨k', v'⟩ := hd
    rcases hc : strCmp k k' with - | - | -
    · simp [btInsert, hc, btLookup]
    · simp [btInsert, hc, btLookup]
    · have hne : k ≠ k' := strCmp_gt_ne hc
      simp [btInsert, hc, btLookup, hne, ih]

theorem btLookup_btInsert_ne {α : Type} {j k : String} (h : j ≠ k) (v : α)
    (m : List (String × α)) : btLookup j (btInsert k v m) = btLookup j m := by
  induction m with
  | nil => simp [btInsert, btLookup, h]
  | cons hd rest ih =>
    obtain ⟨k', v'⟩ := hd
    rcases hc : strCmp k k' with - | - | -
    · simp [btInsert, hc, btLookup, h]
    · have heq : k = k' := strCmp_eq_eq hc
      subst heq
      simp [btInsert, hc, btLookup, h]
    · simp only [btInsert, hc, btLookup]
      by_cases h3 : j = k'
      · simp [h3]
      · simp [h3, ih]

theorem btInsert_keys_mem {α : Type} (k : String) (v : α) (m : List (String × α))
    (j : String) :
    j ∈ (btInsert k v m).map Prod.fst ↔ j = k ∨ j ∈ m.map Prod.fst := by
  induction m with
  | nil => simp [btInsert]
  | cons hd rest ih =>
    obtain ⟨k', v'⟩ := hd
    rcases hc : strCmp k k' with - | - | -
    · simp [btInsert, hc]
    · have heq : k = k' := strCmp_eq_eq hc
      subst heq
      simp [btInsert, hc]
    · simp only [btInsert, hc, List.map_cons, List.mem_cons, ih]
      tauto

theorem btInsert_sorted {α : Type} (k : String) (v : α) (m : List (String × α))
    (h : List.Sorted strLt (m.map Prod.fst)) :
    List.Sorted strLt ((btInsert k v m).map Prod.fst) := by
  induction m with
  | nil => simp [btInsert]
  | cons hd rest ih =>
    obtain ⟨k', v'⟩ := hd
    simp only [List.map_cons, List.sorted_cons] at h
    obtain ⟨hall, hrest⟩ := h
    rcases hc : strCmp k k' with - | - | -
    · simp only [btInsert, hc, List.map_cons, List.sorted_cons]
      refine ⟨?_, ?_, hrest⟩
      · intro b hb
        rcases List.mem_cons.1 hb with rfl | hb
        · exact hc
        · exact strLt_trans hc (hall b hb)
      · exact hall
    · have heq : k = k' := strCmp_eq_eq hc
      subst heq
      simp only [btInsert, hc, List.map_cons, List.sorted_cons]
      exact ⟨hall, hrest⟩
    · have h3 : strLt k' k := strCmp_gt_lt hc
      simp only [btInsert, hc, List.map_cons, List.sorted_cons]
      refine ⟨?_, ih hrest⟩
      intro b hb
      rcases (btInsert_keys_mem k v rest b).1 hb with rfl | hb
      · exact h3
      · exact hall b hb

theorem btFoldl_sorted {α : Type} (pairs : List (String × α)) :
    ∀ acc, List.Sorted strLt (acc.map Prod.fst) →
      List.Sorted strLt
        ((pairs.foldl (fun m kv => btInsert kv.1 kv.2 m) acc).map Prod.fst) := by
  induction pairs with
  | nil => intro acc h; simpa using h
  | cons hd rest ih =>
    intro acc h
    simp only [List.foldl_cons]
    exact ih _ (btInsert_sorted hd.1 hd.2 acc h)

theorem btFoldl_keys_mem {α : Type} (pairs : List (String × α)) (j : String) :
    ∀ acc,
      j ∈ ((pairs.foldl (fun m kv => btInsert kv.1 kv.2 m) acc).map Prod.fst) ↔
        j ∈ acc.map Prod.fst ∨ j ∈ pairs.map Prod.fst := by
  induction pairs with
  | nil => intro acc; simp
  | cons hd rest ih =>
    intro acc
    simp only [List.foldl_cons, List.map_cons, List.mem_cons]
    rw [ih, btInsert_keys_mem]
    tauto

theorem btLookup_foldl_not_mem {α : Type} (pairs : List (String × α)) (j : String)
    (h : j ∉ pairs.map Prod.fst) :
    ∀ acc,
      btLookup j (pairs.foldl (fun m kv => btInsert kv.1 kv.2 m) acc) =
        btLookup j acc := by
  induction pairs with
  | nil => intro acc; rfl
  | cons hd rest ih =>
    intro acc
    simp only [List.map_cons, List.mem_cons] at h
    push_neg at h
    simp only [List.foldl_cons]
    rw [ih h.2, btLookup_btInsert_ne h.1]

theorem btLookup_foldl_mem {α : Type} (pairs : List (String × α))
    (hn : (pairs.map Prod.fst).Nodup) (j : String) (v : α) (hm : (j, v) ∈ pairs) :
    ∀ acc,
      btLookup j (pairs.foldl (fun m kv => btInsert kv.1 kv.2 m) acc) = some v := by
  induction pairs with
  | nil => cases hm
  | cons hd rest ih =>
    intro acc
    simp only [List.map_cons, List.nodup_cons] at hn
    simp only [List.foldl_cons]
    rcases List.mem_cons.1 hm with heq | hmem
    · have hj : j = hd.1 := by rw [← heq]
      have hnot : j ∉ rest.map Prod.fst := hj ▸ hn.1
      rw [btLookup_foldl_not_mem rest j hnot]
      rw [← heq]
      exact btLookup_btInsert_self j v acc
    · exact ih hn.2 hmem _

/-! ### takeWhile helper -/

theorem takeWhile_append_all {α : Type} (p : α → Bool) (pre post : List α)
    (h : ∀ x ∈ pre, p x = true) :
    (pre ++ post).takeWhile p = pre ++ post.takeWhile p := by
  induction pre with
  | nil => rfl
  | cons a rest ih =>
    simp only [List.cons_append, List.takeWhile_cons]
    rw [h a (List.mem_cons_self a rest)]
    simp only [ite_true]
    rw [ih (fun x hx => h x (List.mem_cons_of_mem a hx))]

/-! ### Entry-stream loop lemmas -/

theorem entryStreamDecode_error_shape (ext : Externals) (src buf' : List Nat)
    (e : DecodeError) (h : entryStreamDecode ext src = (buf', .error e)) :
    ∃ re, e = .decodeError re := by
  unfold entryStreamDecode at h
  by_cases hs : src = []
  · rw [if_pos hs] at h
    simp at h
  · rw [if_neg hs] at h
    rcases hde : ext.desEntry src with ⟨pos, r⟩
    rw [hde] at h
    match r with
    | .error (.invalidDataRead .unexpectedEof) => simp at h
    | .error (.invalidDataRead .otherKind) =>
      simp only [Prod.mk.injEq, Except.error.injEq] at h
      exact ⟨_, h.2.symm⟩
    | .error (.invalidMarkerRead kind) =>
      simp only [Prod.mk.injEq, Except.error.injEq] at h
      exact ⟨_, h.2.symm⟩
    | .error .otherError =>
      simp only [Prod.mk.injEq, Except.error.injEq] at h
      exact ⟨_, h.2.symm⟩
    | .ok entry => simp at h

theorem entryStreamLoop_error_shape (ext : Externals) :
    ∀ (fuel : Nat) (buf : List Nat) (entries : List FluentEntry)
      (finalBuf : List Nat) (e : DecodeError),
      entryStreamLoop ext fuel buf = some (entries, finalBuf, .error e) →
      ∃ re, e = .decodeError re := by
  intro fuel
  induction fuel with
  | zero =>
    intro buf entries finalBuf e h
    simp [entryStreamLoop] at h
  | succ fuel ih =>
    intro buf entries finalBuf e h
    rw [entryStreamLoop] at h
    split at h
    · rename_i buf' entry hdec
      split at h
      · simp at h
      · rename_i es fb lr hloop
        simp only [Option.some.injEq, Prod.mk.injEq] at h
        obtain ⟨-, -, h3⟩ := h
        rw [h3] at hloop
        exact ih buf' es fb e hloop
    · rename_i buf' hdec
      simp only [Option.some.injEq, Prod.mk.injEq] at h
      obtain ⟨-, -, h3⟩ := h
      simp at h3
    · rename_i buf' e' hdec
      simp only [Option.some.injEq, Prod.mk.injEq] at h
      obtain ⟨-, -, h3⟩ := h
      injection h3 with h3
      rw [h3] at hdec
      exact entryStreamDecode_error_shape ext buf buf' e hdec

theorem entryStreamLoop_exhausts (ext : Externals)
    (hsucc : ∀ b : List Nat, b ≠ [] →
      ∃ e pos, ext.desEntry b = (pos, .ok (some e)) ∧ 1 ≤ pos ∧ pos ≤ b.length) :
    ∀ (fuel : Nat) (buf : List Nat), buf.length < fuel →
      ∃ entries, entryStreamLoop ext fuel buf = some (entries, [], .ok ()) := by
  intro fuel
  induction fuel with
  | zero =>
    intro buf h
    omega
  | succ fuel ih =>
    intro buf h
    by_cases hb : buf = []
    · subst hb
      refine ⟨[], ?_⟩
      rw [entryStreamLoop]
      have hdec : entryStreamDecode ext [] = ([], .ok none) := by
        simp [entryStreamDecode]
      rw [hdec]
    · obtain ⟨e, pos, heq, h1, h2⟩ := hsucc buf hb
      have hdec : entryStreamDecode ext buf = (buf.drop pos, .ok (some e)) := by
        unfold entryStreamDecode
        rw [if_neg hb, heq]
      have hlen : (buf.drop pos).length < fuel := by
        rw [List.length_drop]
        omega
      obtain ⟨entries, hloop⟩ := ih (buf.drop pos) hlen
      refine ⟨e :: entries, ?_⟩
      rw [entryStreamLoop, hdec]
      dsimp only
      rw [hloop]

/-! ### C5: EventTime extension decoder -/

/--
Claim C5 (code bug): the EventTime visitor does reject every ext tag
other than 0 and every payload whose length is not 8, but it does not
compose the timestamp without panicking for all 2^64 payloads: the
composition calls chrono's `Utc.timestamp`, which unwraps
`timestamp_opt`, and that returns `None` for any nanosecond field of at
least 2,000,000,000.  The payload `00 00 00 00 77 35 94 00` (seconds 0,
nanoseconds 2,000,000,000) makes the decoder panic.
-/
theorem eventtime_checks_and_panics :
    fluentEventTimeVisitSeq 1 [0, 0, 0, 0, 0, 0, 0, 0] = .errorTag 1 ∧
    fluentEventTimeVisitSeq 0 [0, 0, 0] = .errorLen 3 ∧
    fluentEventTimeVisitSeq 0 [0, 0, 0, 0, 119, 53, 148, 0] = .panicked ∧
    fluentEventTimeVisitSeq 0 [0, 0, 0, 10, 0, 0, 0, 100] = .composed 10 100 := by
  refine ⟨?_, ?_, ?_, ?_⟩ <;> decide

/-! ### C6: FluentRecord key order -/

/--
Claim C6 (counterexample): a `FluentRecord` does not preserve wire
insertion order.  Deserializing the wire pairs `("b", nil), ("a", nil)`
into the record's `BTreeMap` yields the keys in sorted order
`["a", "b"]`, not in the order `["b", "a"]` in which they appeared.
-/
theorem record_wire_order_lost :
    (btFromList [("b", RmpValue.nil), ("a", RmpValue.nil)]).map Prod.fst = ["a", "b"] ∧
    (["a", "b"] : List String) ≠ ["b", "a"] := by
  constructor
  · rfl
  · decide

/--
Claim C6 (amended): a `FluentRecord` is a mapping from string keys to
values in which keys are unique, and iterating a decoded record yields
the keys in ascending lexicographic order (`BTreeMap` iteration order) —
not in wire insertion order; exactly the wire keys appear.
-/
theorem record_keys_sorted_unique (pairs : List (String × RmpValue)) :
    List.Sorted strLt ((btFromList pairs).map Prod.fst) ∧
    ((btFromList pairs).map Prod.fst).Nodup ∧
    ∀ j : String, j ∈ (btFromList pairs).map Prod.fst ↔ j ∈ pairs.map Prod.fst := by
  have hsorted : List.Sorted strLt ((btFromList pairs).map Prod.fst) :=
    btFoldl_sorted pairs [] (by simp)
  refine ⟨hsorted, ?_, ?_⟩
  · exact List.Pairwise.imp (fun h => strLt_ne h) hsorted
  · intro j
    have := btFoldl_keys_mem pairs j []
    simpa using this

/-! ### C2: error fatality classification and the connection handler -/

/--
Claim C2: the `DecodeError` classification makes I/O errors fatal and
MessagePack decode errors, unknown-compression errors and
unexpected-value errors non-fatal, and the connection handler's stream
consumption stops exactly at the first fatal error while continuing past
non-fatal ones.
-/
theorem decode_error_fatal_classification :
    (∀ e : IoError, (DecodeError.ioError e).is_error_fatal = true) ∧
    (∀ e : RmpDecodeError, (DecodeError.decodeError e).is_error_fatal = false) ∧
    (∀ s : String, (DecodeError.unknownCompression s).is_error_fatal = false) ∧
    (∀ v : RmpValue, (DecodeError.unexpectedValue v).is_error_fatal = false) ∧
    (∀ (pre post : List (Except DecodeError FluentFrame)) (e : DecodeError),
      (∀ x ∈ pre, keepConsuming x = true) → e.is_error_fatal = true →
      consumedItems (pre ++ .error e :: post) = pre) ∧
    (∀ (pre post : List (Except DecodeError FluentFrame)) (e : DecodeError),
      (∀ x ∈ pre, keepConsuming x = true) → e.is_error_fatal = false →
      consumedItems (pre ++ .error e :: post) =
        pre ++ .error e :: consumedItems post) := by
  refine ⟨fun e => rfl, fun e => rfl, fun s => rfl, fun v => rfl, ?_, ?_⟩
  · intro pre post e hpre hfatal
    unfold consumedItems
    rw [takeWhile_append_all keepConsuming pre (.error e :: post) hpre]
    rw [List.takeWhile_cons]
    simp [keepConsuming, hfatal]
  · intro pre post e hpre hfatal
    unfold consumedItems
    rw [takeWhile_append_all keepConsuming pre (.error e :: post) hpre]
    rw [List.takeWhile_cons]
    simp [keepConsuming, hfatal]

/-- Witness for `decode_error_fatal_classification` on a concrete stream:
one good frame, then a non-fatal decode error (consumption continues past
it), then a fatal I/O error (consumption stops just before it). -/
theorem decode_error_fatal_classification_witness :
    consumedItems
        [.ok ⟨"t", .unix 0, []⟩, .error (.decodeError .otherError),
         .error (.ioError ⟨.otherKind⟩), .ok ⟨"t", .unix 0, []⟩] =
      [.ok ⟨"t", .unix 0, []⟩, .error (.decodeError .otherError)] := by
  have h := decode_error_fatal_classification.2.2.2.2.1
    [Except.ok ⟨"t", .unix 0, []⟩, Except.error (.decodeError .otherError)]
    [Except.ok ⟨"t", FluentTimestamp.unix 0, []⟩]
    (DecodeError.ioError ⟨.otherKind⟩)
    (by
      intro x hx
      rcases List.mem_cons.1 hx with rfl | hx2
      · rfl
      · rcases List.mem_cons.1 hx2 with rfl | hx3
        · rfl
        · cases hx3)
    rfl
  exact h

/-! ### C4: entry-stream sub-decoder EOF rule -/

/--
Claim C4 (counterexample): the entry-stream sub-decoder does not apply
the same unexpected-EOF rule as the outer decoder.  On a deserialization
failure that is an unexpected-EOF in marker-read — which rmp-serde
produces for instance on the truncated payload `[0x92]` (a fixarray-2
header with nothing after it, one byte consumed) — the sub-decoder
returns a decode error and advances the buffer, while the outer
decoder's rule (`rmpUnexpectedEof`) classifies exactly this failure as
need-more-bytes.
-/
theorem entry_stream_marker_eof_error :
    entryStreamDecode extMarkerEof [146] =
      ([], .error (.decodeError (.invalidMarkerRead .unexpectedEof))) ∧
    rmpUnexpectedEof (.invalidMarkerRead .unexpectedEof) = true :=
  ⟨rfl, rfl⟩

/--
Claim C4 (amended): the entry-stream sub-decoder returns `None` without
consuming bytes on an empty buffer and on a data-read unexpected-EOF,
but a marker-read unexpected-EOF is surfaced as a `Decode` error with
the buffer advanced by the deserializer's position (only the data-read
case of the outer decoder's EOF rule is applied); and the
`handle_message` loop does decode entries repeatedly until the buffer is
exhausted — whenever each decode step consumes at least one byte and
succeeds, the loop ends with an empty buffer, having collected every
entry in order.
-/
theorem entry_stream_decode_rule (ext : Externals) (src : List Nat) :
    (src = [] → entryStreamDecode ext src = (src, .ok none)) ∧
    (∀ pos, ext.desEntry src = (pos, .error (.invalidDataRead .unexpectedEof)) →
      entryStreamDecode ext src = (src, .ok none)) ∧
    (∀ pos, src ≠ [] →
      ext.desEntry src = (pos, .error (.invalidMarkerRead .unexpectedEof)) →
      entryStreamDecode ext src =
        (src.drop pos, .error (.decodeError (.invalidMarkerRead .unexpectedEof)))) ∧
    (∀ fuel, src.length < fuel →
      (∀ b : List Nat, b ≠ [] →
        ∃ e pos, ext.desEntry b = (pos, .ok (some e)) ∧ 1 ≤ pos ∧ pos ≤ b.length) →
      ∃ entries, entryStreamLoop ext fuel src = some (entries, [], .ok ())) := by
  refine ⟨?_, ?_, ?_, ?_⟩
  · intro h
    subst h
    simp [entryStreamDecode]
  · intro pos h
    by_cases hs : src = []
    · subst hs
      simp [entryStreamDecode]
    · unfold entryStreamDecode
      rw [if_neg hs, h]
  · intro pos hs h
    unfold entryStreamDecode
    rw [if_neg hs, h]
  · intro fuel hlen hsucc
    exact entryStreamLoop_exhausts ext hsucc fuel src hlen

/-- Witness for `entry_stream_decode_rule`: the empty buffer yields no
entry, and with an always-succeeding one-byte-consuming deserializer the
loop over a two-byte payload terminates normally. -/
theorem entry_stream_decode_rule_witness :
    entryStreamDecode extProgress [] = ([], .ok none) ∧
    (entryStreamLoop extProgress 3 [7, 8]).isSome = true := by
  constructor
  · exact (entry_stream_decode_rule extProgress []).1 rfl
  · obtain ⟨entries, hloop⟩ :=
      (entry_stream_decode_rule extProgress [7, 8]).2.2.2 3 (by simp)
        (by
          intro b hb
          refine ⟨⟨.unix 0, []⟩, 1, rfl, le_refl 1, ?_⟩
          have := List.length_pos.2 hb
          omega)
    rw [hloop]
    rfl

/-! ### C1: None means need-more-bytes in the outer decoder -/

/--
Claim C1 (counterexample): `None` is not returned exactly when the
buffer is empty or a valid strict prefix, and not always without
consuming bytes: on the buffer `[0xc0]` — which rmp-serde decodes
completely, consuming the byte and producing `Heartbeat(Nil)` — decode
returns `Ok(None)` with the pending queue empty while consuming the
byte; the input was a complete message, not a prefix needing more input,
and the buffer is not left untouched.
-/
theorem fluent_decode_none_consumes_heartbeat :
    FluentDecoder.decode extHeartbeat ⟨[]⟩ [192] = some (⟨[]⟩, [], .ok none) ∧
    extHeartbeat.desMessage [192] = (1, .ok (.heartbeat .nil)) ∧
    ([192] : List Nat) ≠ [] ∧ ([] : List Nat) ≠ [192] := by
  refine ⟨rfl, rfl, by simp, by simp⟩

/--
Claim C1 (amended): when the pending queue is empty, decode returns
`Ok(None)` and consumes no bytes if the buffer is empty or if
deserialization fails with an unexpected-EOF of the underlying reader
(in either marker-read or data-read); decode additionally returns
`Ok(None)` after consuming the message's bytes whenever a successfully
decoded message expands to zero frames (e.g. a nil heartbeat), so
`None` alone does not imply that nothing was consumed.
-/
theorem fluent_decode_none_cases (ext : Externals) (self : FluentDecoder)
    (src : List Nat) (hq : self.unread_frames = []) :
    (src = [] → FluentDecoder.decode ext self src = some (self, src, .ok none)) ∧
    (∀ pos e, ext.desMessage src = (pos, .error e) → rmpUnexpectedEof e = true →
      FluentDecoder.decode ext self src = some (self, src, .ok none)) ∧
    (∀ pos msg next, src ≠ [] → ext.desMessage src = (pos, .ok msg) →
      FluentDecoder.handle_message ext self msg = some (next, .ok ()) →
      next.unread_frames = [] →
      FluentDecoder.decode ext self src = some (next, src.drop pos, .ok none)) := by
  obtain ⟨q⟩ := self
  simp only at hq
  subst hq
  refine ⟨?_, ?_, ?_⟩
  · intro h
    subst h
    rfl
  · intro pos e hdes heof
    by_cases hs : src = []
    · subst hs
      rfl
    · unfold FluentDecoder.decode
      dsimp only
      rw [if_neg hs, hdes]
      dsimp only
      rw [heof]
      simp
  · intro pos msg next hs hdes hhandle hnext
    unfold FluentDecoder.decode
    dsimp only
    rw [if_neg hs, hdes]
    dsimp only
    rw [hhandle]
    dsimp only
    rw [hnext]

/-- Witness for `fluent_decode_none_cases`: the empty buffer, and a
marker-read unexpected-EOF outcome on the truncated buffer `[0x92]`. -/
theorem fluent_decode_none_cases_witness :
    FluentDecoder.decode extHeartbeat ⟨[]⟩ [] = some (⟨[]⟩, [], .ok none) ∧
    FluentDecoder.decode extMarkerEof ⟨[]⟩ [146] = some (⟨[]⟩, [146], .ok none) := by
  constructor
  · exact (fluent_decode_none_cases extHeartbeat ⟨[]⟩ [] rfl).1 rfl
  · exact (fluent_decode_none_cases extMarkerEof ⟨[]⟩ [146] rfl).2.1 0
      (.invalidMarkerRead .unexpectedEof) rfl rfl

/-! ### C3: non-fatal decode errors, buffer progress, and the connection -/

/--
Claim C3: when `FluentDecoder::decode` surfaces a decode error, the
buffer has been advanced exactly by the deserializer's consumed byte
count — past the offending message only if bytes were consumed.  Under
the progress property of rmp-serde (deserializing a nonempty buffer
always consumes at least one byte, because the first marker byte is read
before anything else; even the reserved marker `0xc1` is consumed before
failing), the consumed count at any surfaced error is at least one, so
the claim's "decoder consumed zero bytes" guard can never fire — that
conditional holds vacuously — and every surfaced decode error strictly
shrinks the buffer, so a non-progressing stream can never cause an
infinite loop of repeated decode errors on the same bytes.
-/
theorem decode_error_progress (ext : Externals)
    (hprog : ∀ b : List Nat, b ≠ [] → 1 ≤ (ext.desMessage b).1)
    (self : FluentDecoder) (src src' : List Nat) (next : FluentDecoder)
    (e : DecodeError)
    (h : FluentDecoder.decode ext self src = some (next, src', .error e)) :
    src' = src.drop (ext.desMessage src).1 ∧
    1 ≤ (ext.desMessage src).1 ∧
    src'.length < src.length := by
  rcases hself : self.unread_frames with - | ⟨f, rest⟩
  · unfold FluentDecoder.decode at h
    rw [hself] at h
    dsimp only at h
    by_cases hs : src = []
    · rw [if_pos hs] at h
      simp at h
    · rw [if_neg hs] at h
      have hp := hprog src hs
      have hlen1 : 1 ≤ src.length := List.length_pos.2 hs
      rcases hdes : ext.desMessage src with ⟨pos, res⟩
      rw [hdes] at h hp
      dsimp only at h hp ⊢
      match res with
      | .error e0 =>
        dsimp only at h ⊢
        by_cases heof : rmpUnexpectedEof e0 = true
        · rw [if_pos heof] at h
          simp at h
        · rw [if_neg heof] at h
          simp only [Option.some.injEq, Prod.mk.injEq] at h
          obtain ⟨h1, h2, h3⟩ := h
          refine ⟨h2.symm, hp, ?_⟩
          rw [← h2, List.length_drop]
          omega
      | .ok msg =>
        dsimp only at h ⊢
        rcases hh : FluentDecoder.handle_message ext self msg with - | ⟨n2, r2⟩
        · rw [hh] at h
          simp at h
        · rw [hh] at h
          match r2 with
          | .ok u =>
            dsimp only at h
            rcases hn2 : n2.unread_frames with - | ⟨f2, r2s⟩
            · rw [hn2] at h
              simp at h
            · rw [hn2] at h
              simp at h
          | .error e2 =>
            dsimp only at h
            simp only [Option.some.injEq, Prod.mk.injEq] at h
            obtain ⟨h1, h2, h3⟩ := h
            refine ⟨h2.symm, hp, ?_⟩
            rw [← h2, List.length_drop]
            omega
  · unfold FluentDecoder.decode at h
    rw [hself] at h
    simp at h

/-- Witness for `decode_error_progress` at the concrete reserved-marker
buffer `[0xc1]`: the marker byte is consumed before the failure, and the
buffer strictly shrinks. -/
theorem decode_error_progress_witness :
    ([] : List Nat) = [193].drop (extReserved.desMessage [193]).1 ∧
    1 ≤ (extReserved.desMessage [193]).1 ∧
    ([] : List Nat).length < [193].length := by
  exact decode_error_progress extReserved
    (by
      intro b hb
      have := List.length_pos.2 hb
      simp only [extReserved]
      omega)
    ⟨[]⟩ [193] [] ⟨[]⟩ (.decodeError .otherError) rfl

/-! ### C9: atomicity of handle_message's queue append -/

/--
Claim C9 (counterexample): `handle_message` is not atomic on error.  For
a `PackedForward` whose payload decodes to one good entry followed by a
failing one, `handle_message` returns an error while the frame of the
successfully decoded first entry remains appended to the pending queue —
the queue is not left as it was before the call.
-/
theorem handle_message_partial_on_error :
    FluentDecoder.handle_message extOneGood ⟨[]⟩ (.packedForward "t" [1, 2]) =
      some (⟨[⟨"t", .unix 0, []⟩]⟩, .error (.decodeError .otherError)) ∧
    ([(⟨"t", .unix 0, []⟩ : FluentFrame)] : List FluentFrame) ≠ [] := by
  refine ⟨rfl, by simp⟩

/--
Claim C9 (amended): `handle_message` only ever appends, in order, at the
end of the pending queue (never reordering or dropping existing frames);
`Message*` and `Forward*` messages append exactly their expanded frames
and succeed; a heartbeat never modifies the queue; an unknown-compression
or gzip-I/O error is raised before any sub-decoding, leaving the queue
exactly as it was; but when an entry inside a packed payload fails after
some entries decoded, the frames of the successfully decoded prefix
remain appended alongside the returned error.
-/
theorem handle_message_append (ext : Externals) (self next : FluentDecoder)
    (msg : FluentMessage) (res : Except DecodeError Unit)
    (h : FluentDecoder.handle_message ext self msg = some (next, res)) :
    (∃ fs, next.unread_frames = self.unread_frames ++ fs) ∧
    (∀ tag ts record, msg = .message tag ts record →
      next.unread_frames = self.unread_frames ++ [⟨tag, ts, record⟩] ∧
        res = .ok ()) ∧
    (∀ tag entries, msg = .forward tag entries →
      next.unread_frames = self.unread_frames ++ framesOfEntries tag entries ∧
        res = .ok ()) ∧
    (∀ v, msg = .heartbeat v → next = self) ∧
    (∀ s, res = .error (.unknownCompression s) → next = self) ∧
    (∀ ioe, res = .error (.ioError ioe) → next = self) ∧
    (∀ tag bin entries finalBuf lres, msg = .packedForward tag bin →
      entryStreamLoop ext (bin.length + 1) bin = some (entries, finalBuf, lres) →
      next.unread_frames = self.unread_frames ++ framesOfEntries tag entries ∧
        res = lres) := by
  cases msg with
  | message tag ts record =>
    simp only [FluentDecoder.handle_message, Option.some.injEq, Prod.mk.injEq] at h
    obtain ⟨h1, h2⟩ := h
    subst h1
    subst h2
    refine ⟨⟨[⟨tag, ts, record⟩], rfl⟩, ?_, ?_, ?_, ?_, ?_, ?_⟩
    · intro tag' ts' record' heq
      injection heq with e1 e2 e3
      subst e1; subst e2; subst e3
      exact ⟨rfl, rfl⟩
    · intro tag' entries heq
      cases heq
    · intro v heq
      cases heq
    · intro s hres
      cases hres
    · intro ioe hres
      cases hres
    · intro tag' bin entries finalBuf lres heq
      cases heq
  | messageWithOptions tag ts record opts =>
    simp only [FluentDecoder.handle_message, Option.some.injEq, Prod.mk.injEq] at h
    obtain ⟨h1, h2⟩ := h
    subst h1
    subst h2
    refine ⟨⟨[⟨tag, ts, record⟩], rfl⟩, ?_, ?_, ?_, ?_, ?_, ?_⟩
    · intro tag' ts' record' heq
      cases heq
    · intro tag' entries heq
      cases heq
    · intro v heq
      cases heq
    · intro s hres
      cases hres
    · intro ioe hres
      cases hres
    · intro tag' bin entries finalBuf lres heq
      cases heq
  | forward tag entries =>
    simp only [FluentDecoder.handle_message, Option.some.injEq, Prod.mk.injEq] at h
    obtain ⟨h1, h2⟩ := h
    subst h1
    subst h2
    refine ⟨⟨framesOfEntries tag entries, rfl⟩, ?_, ?_, ?_, ?_, ?_, ?_⟩
    · intro tag' ts' record' heq
      cases heq
    · intro tag' entries' heq
      injection heq with e1 e2
      subst e1; subst e2
      exact ⟨rfl, rfl⟩
    · intro v heq
      cases heq
    · intro s hres
      cases hres
    · intro ioe hres
      cases hres
    · intro tag' bin entries' finalBuf lres heq
      cases heq
  | forwardWithOptions tag entries opts =>
    simp only [FluentDecoder.handle_message, Option.some.injEq, Prod.mk.injEq] at h
    obtain ⟨h1, h2⟩ := h
    subst h1
    subst h2
    refine ⟨⟨framesOfEntries tag entries, rfl⟩, ?_, ?_, ?_, ?_, ?_, ?_⟩
    · intro tag' ts' record' heq
      cases heq
    · intro tag' entries' heq
      cases heq
    · intro v heq
      cases heq
    · intro s hres
      cases hres
    · intro ioe hres
      cases hres
    · intro tag' bin entries' finalBuf lres heq
      cases heq
  | packedForward tag bin =>
    simp only [FluentDecoder.handle_message] at h
    rcases hl : entryStreamLoop ext (bin.length + 1) bin with - | ⟨entries, finalBuf, lres⟩
    · rw [hl] at h
      simp at h
    · rw [hl] at h
      dsimp only at h
      simp only [Option.some.injEq, Prod.mk.injEq] at h
      obtain ⟨h1, h2⟩ := h
      subst h1
      subst h2
      refine ⟨⟨framesOfEntries tag entries, rfl⟩, ?_, ?_, ?_, ?_, ?_, ?_⟩
      · intro tag' ts' record' heq
        cases heq
      · intro tag' entries' heq
        cases heq
      · intro v heq
        cases heq
      · intro s hres
        subst hres
        obtain ⟨re, hre⟩ :=
          entryStreamLoop_error_shape ext (bin.length + 1) bin entries finalBuf _ hl
        cases hre
      · intro ioe hres
        subst hres
        obtain ⟨re, hre⟩ :=
          entryStreamLoop_error_shape ext (bin.length + 1) bin entries finalBuf _ hl
        cases hre
      · intro tag' bin' entries' finalBuf' lres' heq hl'
        injection heq with e1 e2
        subst e1
        subst e2
        rw [hl] at hl'
        simp only [Option.some.injEq, Prod.mk.injEq] at hl'
        obtain ⟨g1, g2, g3⟩ := hl'
        subst g1
        subst g3
        exact ⟨rfl, rfl⟩
  | packedForwardWithOptions tag bin opts =>
    simp only [FluentDecoder.handle_message] at h
    rcases hm : materializePacked ext opts bin with em | buf
    · rw [hm] at h
      dsimp only at h
      simp only [Option.some.injEq, Prod.mk.injEq] at h
      obtain ⟨h1, h2⟩ := h
      subst h1
      refine ⟨⟨[], by simp⟩, ?_, ?_, ?_, ?_, ?_, ?_⟩
      · intro tag' ts' record' heq
        cases heq
      · intro tag' entries' heq
        cases heq
      · intro v heq
        cases heq
      · intro s hres
        rfl
      · intro ioe hres
        rfl
      · intro tag' bin' entries' finalBuf' lres' heq
        cases heq
    · rw [hm] at h
      dsimp only at h
      rcases hl : entryStreamLoop ext (buf.length + 1) buf with - | ⟨entries, finalBuf, lres⟩
      · rw [hl] at h
        simp at h
      · rw [hl] at h
        dsimp only at h
        simp only [Option.some.injEq, Prod.mk.injEq] at h
        obtain ⟨h1, h2⟩ := h
        subst h1
        subst h2
        refine ⟨⟨framesOfEntries tag entries, rfl⟩, ?_, ?_, ?_, ?_, ?_, ?_⟩
        · intro tag' ts' record' heq
          cases heq
        · intro tag' entries' heq
          cases heq
        · intro v heq
          cases heq
        · intro s hres
          subst hres
          obtain ⟨re, hre⟩ :=
            entryStreamLoop_error_shape ext (buf.length + 1) buf entries finalBuf _ hl
          cases hre
        · intro ioe hres
          subst hres
          obtain ⟨re, hre⟩ :=
            entryStreamLoop_error_shape ext (buf.length + 1) buf entries finalBuf _ hl
          cases hre
        · intro tag' bin' entries' finalBuf' lres' heq
          cases heq
  | heartbeat v =>
    have hself : next = self ∧ ∃ fs, next.unread_frames = self.unread_frames ++ fs := by
      cases v <;>
        (simp only [FluentDecoder.handle_message, Option.some.injEq, Prod.mk.injEq] at h
         obtain ⟨h1, h2⟩ := h
         subst h1
         exact ⟨rfl, ⟨[], by simp⟩⟩)
    obtain ⟨hn, hfs⟩ := hself
    refine ⟨hfs, ?_, ?_, ?_, ?_, ?_, ?_⟩
    · intro tag' ts' record' heq
      cases heq
    · intro tag' entries' heq
      cases heq
    · intro v' heq
      exact hn
    · intro s hres
      exact hn
    · intro ioe hres
      exact hn
    · intro tag' bin' entries' finalBuf' lres' heq
      cases heq

/-- Witness for `handle_message_append`: a plain `Message` appends
exactly its one frame and succeeds. -/
theorem handle_message_append_witness :
    FluentDecoder.unread_frames ⟨[⟨"t", .unix 0, []⟩]⟩ =
      FluentDecoder.unread_frames ⟨[]⟩ ++ [⟨"t", .unix 0, []⟩] ∧
    (Except.ok () : Except DecodeError Unit) = .ok () :=
  (handle_message_append extOneGood ⟨[]⟩ ⟨[⟨"t", .unix 0, []⟩]⟩
    (.message "t" (.unix 0) []) (.ok ()) rfl).2.1 "t" (.unix 0) [] rfl

/-! ### C7: the event builder's field keys -/

/--
Claim C7 (counterexample): the tag key is not taken from the downstream
schema parameterisation.  With a schema whose four configurable keys are
all different from `"tag"`, the built event still stores the frame's tag
under the literal key `"tag"` — a key drawn from none of the schema's
fields, because the builder hard-codes it.
-/
theorem build_event_tag_hardcoded :
    btLookup "tag"
        (build_event ⟨"h", "msg", "st", "ts"⟩ ⟨"mytag", .unix 5, []⟩ [1]) =
      some (.bytes (utf8Bytes "mytag")) ∧
    ("tag" : String) ≠ "h" ∧ ("tag" : String) ≠ "msg" ∧
    ("tag" : String) ≠ "st" ∧ ("tag" : String) ≠ "ts" := by
  refine ⟨rfl, by decide, by decide, by decide, by decide⟩

/--
Claim C7 (amended): for every frame and host, and whenever the involved
keys do not collide, the built event contains the host at the schema's
`host_key`, the frame's timestamp at the schema's `timestamp_key`, the
frame's tag at the hard-coded literal key `"tag"` (not parameterised on
the schema), and every record pair flat — each record key is used
verbatim as a top-level field name (dotted keys included).
-/
theorem build_event_fields (schema : LogSchema) (frame : FluentFrame)
    (host : List Nat)
    (hn : (frame.record.map Prod.fst).Nodup)
    (h1 : schema.host_key ≠ schema.timestamp_key)
    (h2 : schema.host_key ≠ "tag")
    (h3 : schema.timestamp_key ≠ "tag")
    (h4 : ∀ k ∈ frame.record.map Prod.fst,
      k ≠ schema.host_key ∧ k ≠ schema.timestamp_key ∧ k ≠ "tag") :
    btLookup schema.host_key (build_event schema frame host) =
      some (.bytes host) ∧
    btLookup schema.timestamp_key (build_event schema frame host) =
      some (timestampValue frame.timestamp) ∧
    btLookup "tag" (build_event schema frame host) =
      some (.bytes (utf8Bytes frame.tag)) ∧
    (∀ k v, (k, v) ∈ frame.record →
      btLookup k (build_event schema frame host) = some (fluentToValue v)) := by
  have hfold :
      build_event schema frame host =
        (frame.record.map fun kv => (kv.1, fluentToValue kv.2)).foldl
          (fun l kv => btInsert kv.1 kv.2 l)
          (btInsert "tag" (.bytes (utf8Bytes frame.tag))
            (btInsert schema.timestamp_key (timestampValue frame.timestamp)
              (btInsert schema.host_key (.bytes host) []))) := by
    unfold build_event
    rw [List.foldl_map]
  have hkeys :
      (frame.record.map fun kv => (kv.1, fluentToValue kv.2)).map Prod.fst =
        frame.record.map Prod.fst := by
    simp [List.map_map, Function.comp]
  refine ⟨?_, ?_, ?_, ?_⟩
  · rw [hfold]
    rw [btLookup_foldl_not_mem _ _ (by rw [hkeys]; intro hmem; exact (h4 _ hmem).1 rfl)]
    rw [btLookup_btInsert_ne h2, btLookup_btInsert_ne h1]
    exact btLookup_btInsert_self _ _ _
  · rw [hfold]
    rw [btLookup_foldl_not_mem _ _ (by rw [hkeys]; intro hmem; exact (h4 _ hmem).2.1 rfl)]
    rw [btLookup_btInsert_ne h3]
    exact btLookup_btInsert_self _ _ _
  · rw [hfold]
    rw [btLookup_foldl_not_mem _ _
      (by rw [hkeys]; intro hmem; exact (h4 _ hmem).2.2 rfl)]
    exact btLookup_btInsert_self _ _ _
  · intro k v hm
    rw [hfold]
    refine btLookup_foldl_mem _ ?_ k (fluentToValue v) ?_ _
    · rw [hkeys]
      exact hn
    · exact List.mem_map_of_mem (fun kv => (kv.1, fluentToValue kv.2)) hm

/-- Witness for `build_event_fields` with the stock schema keys, a dotted
record key, and a concrete host. -/
theorem build_event_fields_witness :
    btLookup "host"
        (build_event ⟨"host", "message", "source_type", "timestamp"⟩
          ⟨"t", .unix 0, [("a.b", .nil)]⟩ [127]) = some (.bytes [127]) ∧
    btLookup "a.b"
        (build_event ⟨"host", "message", "source_type", "timestamp"⟩
          ⟨"t", .unix 0, [("a.b", .nil)]⟩ [127]) = some (fluentToValue .nil) := by
  have h := build_event_fields ⟨"host", "message", "source_type", "timestamp"⟩
    ⟨"t", .unix 0, [("a.b", .nil)]⟩ [127]
    (by simp)
    (by decide) (by decide) (by decide)
    (by
      intro k hk
      simp only [List.map_cons, List.map_nil, List.mem_singleton] at hk
      subst hk
      exact ⟨by decide, by decide, by decide⟩)
  exact ⟨h.1, h.2.2.2 "a.b" .nil (List.mem_singleton.2 rfl)⟩

/-! ### C10: totality of the MessagePack-to-value mapping -/

/--
Claim C10 (counterexample): the mapping does not recurse losslessly into
maps.  Two wire entries whose keys stringify to the same display text —
here the duplicated string key `"k"`, legal on the MessagePack wire,
where a map is a plain sequence of pairs — collapse when collected into
the `BTreeMap`: the resulting map holds a single entry with the later
pair's value, and the earlier pair's value (`nil`, which maps to `Null`)
is dropped.  The same collapse arises for distinct keys with identical
canonical display: `Integer(1)` and `F32(1.0)` both display as `1`.
-/
theorem map_collision_drops_entries :
    fluentToValue (.map [(.str "k", .nil), (.str "k", .boolean true)]) =
      .vmap [("\"k\"", .boolean true)] ∧
    fluentToValue RmpValue.nil = .null ∧
    Value.boolean true ≠ Value.null ∧
    displayValue (.f32 1065353216) = displayValue (.integer 1) := by
  have hn : natToDec 1 = ['1'] := by
    rw [natToDec]
    decide
  have e1 : displayValue (.str "k") = "\"k\"" := by
    simp only [displayValue]
    decide
  have e2 : fluentToValue RmpValue.nil = Value.null := by
    simp only [fluentToValue]
  have e3 : fluentToValue (RmpValue.boolean true) = Value.boolean true := by
    simp only [fluentToValue]
  refine ⟨?_, e2, by simp, ?_⟩
  · rw [fluentToValue]
    rw [List.attach_map_val
      [(RmpValue.str "k", RmpValue.nil), (RmpValue.str "k", RmpValue.boolean true)]
      fun kv => (displayValue kv.1, fluentToValue kv.2)]
    simp only [List.map_cons, List.map_nil]
    rw [e1, e2, e3]
    rfl
  · simp only [displayValue]
    have hf : f32Display 1065353216 = String.mk (natToDec 1) := by
      unfold f32Display
      norm_num
    have hi : intToDec 1 = natToDec 1 := by
      unfold intToDec
      norm_num
    rw [hf, hi]

/--
Claim C10 (amended): the MessagePack-to-normalized-value mapping is
total over every MessagePack value shape and panic-free (a total
function in this embedding): nil, booleans and binary map directly; an
integer inside the `i64` range stays an integer while one outside it
becomes the bytes of its decimal string; `f32` widens to `f64`; strings
become their UTF-8 bytes; arrays map recursively and losslessly (one
element per element, in order); `ext(code, bytes)` becomes the map
`{"msgpack_extension_code": Integer(code), "bytes": Bytes}`; and a map
recurses into its values, formatting each key by its canonical display
string — non-string keys included — collecting into a `BTreeMap` where
the last entry wins for each displayed key, so entries whose displayed
keys collide (duplicate wire keys, or distinct keys with equal display
such as `Integer(1)` and `F32(1.0)`) are collapsed rather than all
preserved; every pair is present whenever the displayed keys are
pairwise distinct.
-/
theorem fluent_value_mapping :
    (fluentToValue .nil = .null) ∧
    (∀ b, fluentToValue (.boolean b) = .boolean b) ∧
    (∀ i : Int, -(2 ^ 63) ≤ i → i < 2 ^ 63 →
      fluentToValue (.integer i) = .integer i) ∧
    (∀ i : Int, 2 ^ 63 ≤ i →
      fluentToValue (.integer i) = .bytes (utf8Bytes (String.mk (intToDec i)))) ∧
    (∀ bits, fluentToValue (.f32 bits) = .float (f32BitsToF64 bits)) ∧
    (∀ bits, fluentToValue (.f64 bits) = .float bits) ∧
    (∀ s, fluentToValue (.str s) = .bytes (utf8Bytes s)) ∧
    (∀ bs, fluentToValue (.binary bs) = .bytes bs) ∧
    (∀ items, fluentToValue (.array items) = .varray (items.map fluentToValue)) ∧
    (∀ code payload, fluentToValue (.ext code payload) =
      .vmap [("bytes", .bytes payload), ("msgpack_extension_code", .integer code)]) ∧
    (∀ entries, fluentToValue (.map entries) =
      .vmap (btFromList (entries.map fun kv =>
        (displayValue kv.1, fluentToValue kv.2)))) ∧
    (∀ entries : List (RmpValue × RmpValue),
      (entries.map fun kv => displayValue kv.1).Nodup →
      ∀ k v, (k, v) ∈ entries →
        btLookup (displayValue k)
          (btFromList (entries.map fun kv =>
            (displayValue kv.1, fluentToValue kv.2))) =
          some (fluentToValue v)) := by
  refine ⟨by simp [fluentToValue], fun b => by simp [fluentToValue], ?_, ?_,
    fun bits => by simp [fluentToValue], fun bits => by simp [fluentToValue],
    fun s => by simp [fluentToValue], fun bs => by simp [fluentToValue],
    ?_, ?_, ?_, ?_⟩
  · intro i hle hlt
    rw [fluentToValue]
    rw [if_pos ⟨hle, hlt⟩]
  · intro i hge
    rw [fluentToValue]
    rw [if_neg (by omega)]
  · intro items
    rw [fluentToValue]
    rw [List.attach_map_val items fluentToValue]
  · intro code payload
    rw [fluentToValue]
    have hcmp : strCmp "bytes" "msgpack_extension_code" = .lt := by decide
    simp [btInsert, hcmp]
  · intro entries
    rw [fluentToValue]
    rw [List.attach_map_val entries fun kv => (displayValue kv.1, fluentToValue kv.2)]
  · intro entries hn k v hm
    unfold btFromList
    refine btLookup_foldl_mem _ ?_ (displayValue k) (fluentToValue v) ?_ _
    · simpa [List.map_map, Function.comp] using hn
    · exact List.mem_map_of_mem (fun kv => (displayValue kv.1, fluentToValue kv.2)) hm

/-- Witness for `fluent_value_mapping`: the in-range integer 5, the
out-of-range integer 2^63, and a one-entry map with an integer key. -/
theorem fluent_value_mapping_witness :
    fluentToValue (.integer 5) = .integer 5 ∧
    fluentToValue (.integer (2 ^ 63)) =
      .bytes (utf8Bytes (String.mk (intToDec (2 ^ 63)))) ∧
    btLookup (displayValue (.integer 7))
        (btFromList ([((.integer 7 : RmpValue), RmpValue.nil)].map fun kv =>
          (displayValue kv.1, fluentToValue kv.2))) =
      some (fluentToValue .nil) := by
  refine ⟨?_, ?_, ?_⟩
  · exact fluent_value_mapping.2.2.1 5 (by norm_num) (by norm_num)
  · exact fluent_value_mapping.2.2.2.1 (2 ^ 63) (by norm_num)
  · exact fluent_value_mapping.2.2.2.2.2.2.2.2.2.2.2
      [((.integer 7 : RmpValue), RmpValue.nil)] (by simp)
      (.integer 7) .nil (List.mem_singleton.2 rfl)

end FluentVerify
